import Mathlib

/-!
Verification of the ELEMENTS finite-element basis library.

The definitions below are a shallow embedding, over the exact rationals, of
the element-evaluation routines found in `src/element_types/elements2D.cpp`,
`src/element_types/elements3D.cpp`, and the Lagrange tensor-product element
interface of `elements-kokkos/include/LagrangeProductBasis.h`.  Loops are
embedded as left folds over `List.range`, and arrays written inside loops are
embedded as functions updated with `Function.update`.
-/

namespace Elements

/-- One iteration of the inner loop of `HexN::lagrange_basis_1D`
(`elements3D.cpp`): when `vert_j` differs from `vert_i` the numerator is
multiplied by `x - z j` and the denominator by `z i - z j`; on every iteration
the interpolant slot is overwritten with `numerator / denominator`.  The state
is `(numerator, denominator, interpolant)`, initialised `(1, 1, 1)`. -/
def basisStep (z : ℕ → ℚ) (x : ℚ) (i : ℕ) (st : ℚ × ℚ × ℚ) (j : ℕ) : ℚ × ℚ × ℚ :=
  let num := if j ≠ i then st.1 * (x - z j) else st.1
  let den := if j ≠ i then st.2.1 * (z i - z j) else st.2.1
  (num, den, num / den)

/-- The state of the inner loop of `HexN::lagrange_basis_1D` after running over
all `N` one-dimensional vertices. -/
def basisLoop (z : ℕ → ℚ) (x : ℚ) (i : ℕ) (N : ℕ) : ℚ × ℚ × ℚ :=
  (List.range N).foldl (basisStep z x i) (1, 1, 1)

/-- Embedding of `HexN::lagrange_basis_1D` (`elements3D.cpp`): the value written to
`interp(vert_i)`, namely the interpolant slot of the loop state.  The node
coordinates `HexN_Verts_1d_` are abstracted as `z` and the vertex count
`num_verts_1d_` as `N`. -/
def lagrange_basis_1D (z : ℕ → ℚ) (N : ℕ) (x : ℚ) (i : ℕ) : ℚ :=
  (basisLoop z x i N).2.2

/-- The innermost loop of `HexN::lagrange_derivative_1D`: the product over all
vertices `m` distinct from both `j` and `i` of `x - z m`
(`product_gradient` in the source). -/
def derivInner (z : ℕ → ℚ) (x : ℚ) (N i j : ℕ) : ℚ :=
  (List.range N).foldl (fun s m => if m ≠ j ∧ m ≠ i then s * (x - z m) else s) 1

/-- One iteration of the middle loop of `HexN::lagrange_derivative_1D`: when
`vert_j` differs from `vert_i` the denominator is multiplied by `z i - z j` and
`product_gradient` is accumulated into `num_gradient`; on every iteration the
gradient slot is overwritten with `num_gradient / denominator`.  The state is
`(denominator, num_gradient, gradient)`, initialised `(1, 0, 0)`. -/
def derivStep (z : ℕ → ℚ) (x : ℚ) (N i : ℕ) (st : ℚ × ℚ × ℚ) (j : ℕ) : ℚ × ℚ × ℚ :=
  let den := if j ≠ i then st.1 * (z i - z j) else st.1
  let numg := if j ≠ i then st.2.1 + derivInner z x N i j else st.2.1
  (den, numg, numg / den)

/-- The state of the middle loop of `HexN::lagrange_derivative_1D` after
running over the first `M` of the `N` one-dimensional vertices. -/
def derivLoop (z : ℕ → ℚ) (x : ℚ) (N i : ℕ) (M : ℕ) : ℚ × ℚ × ℚ :=
  (List.range M).foldl (derivStep z x N i) (1, 0, 0)

/-- Embedding of `HexN::lagrange_derivative_1D` (`elements3D.cpp`): the value written to
`derivative(vert_i)`, namely the gradient slot of the loop state. -/
def lagrange_derivative_1D (z : ℕ → ℚ) (N : ℕ) (x : ℚ) (i : ℕ) : ℚ :=
  (derivLoop z x N i N).2.2

/-- Dropping a factor that equals one: a product of `if j = i then 1 else f j`
over a finset is the product of `f` with `i` erased. -/
lemma prod_ite_erase (s : Finset ℕ) (i : ℕ) (f : ℕ → ℚ) :
    (∏ j ∈ s, if j = i then 1 else f j) = ∏ j ∈ s.erase i, f j := by
  rw [← Finset.prod_erase s (show (if i = i then (1 : ℚ) else f i) = 1 by simp)]
  exact Finset.prod_congr rfl fun j hj => if_neg (Finset.ne_of_mem_erase hj)

/-- Dropping two factors that equal one: a product of
`if m = j ∨ m = i then 1 else f m` equals the product of `f` with both `i` and
`j` erased. -/
lemma prod_ite_erase_two (s : Finset ℕ) (i j : ℕ) (f : ℕ → ℚ) :
    (∏ m ∈ s, if m = j ∨ m = i then 1 else f m) = ∏ m ∈ (s.erase i).erase j, f m := by
  rw [← Finset.prod_erase s (show (if i = j ∨ i = i then (1 : ℚ) else f i) = 1 by simp)]
  rw [← Finset.prod_erase (s.erase i)
        (show (if j = j ∨ j = i then (1 : ℚ) else f j) = 1 by simp)]
  refine Finset.prod_congr rfl fun m hm => if_neg ?_
  rcases Finset.mem_erase.mp hm with ⟨hmj, hm2⟩
  rcases Finset.mem_erase.mp hm2 with ⟨hmi, _⟩
  simp [hmj, hmi]

/-- Dropping a summand that equals zero. -/
lemma sum_ite_erase (s : Finset ℕ) (i : ℕ) (f : ℕ → ℚ) :
    (∑ j ∈ s, if j = i then 0 else f j) = ∑ j ∈ s.erase i, f j := by
  rw [← Finset.sum_erase s (show (if i = i then (0 : ℚ) else f i) = 0 by simp)]
  exact Finset.sum_congr rfl fun j hj => if_neg (Finset.ne_of_mem_erase hj)

/-- Closed form of the basis loop state: the numerator and denominator are the
running products over all processed vertices, and the interpolant slot is their
quotient. -/
lemma basisLoop_eq (z : ℕ → ℚ) (x : ℚ) (i : ℕ) (N : ℕ) :
    basisLoop z x i N =
      (∏ j ∈ Finset.range N, if j = i then 1 else x - z j,
       ∏ j ∈ Finset.range N, if j = i then 1 else z i - z j,
       (∏ j ∈ Finset.range N, if j = i then 1 else x - z j) /
         (∏ j ∈ Finset.range N, if j = i then 1 else z i - z j)) := by
  induction N with
  | zero => simp [basisLoop]
  | succ n ih =>
      have hstep : basisLoop z x i (n + 1) = basisStep z x i (basisLoop z x i n) n := by
        unfold basisLoop
        rw [List.range_succ, List.foldl_append, List.foldl_cons, List.foldl_nil]
      rw [hstep, ih]
      by_cases h : n = i
      · simp [basisStep, h, Finset.prod_range_succ]
      · simp [basisStep, h, Finset.prod_range_succ]

/-- Closed form of the innermost derivative loop: the product of `x - z m` over
all vertices distinct from `j` and `i`. -/
lemma derivInner_eq (z : ℕ → ℚ) (x : ℚ) (N i j : ℕ) :
    derivInner z x N i j =
      ∏ m ∈ Finset.range N, if m = j ∨ m = i then 1 else x - z m := by
  unfold derivInner
  induction N with
  | zero => simp
  | succ n ih =>
      rw [List.range_succ, List.foldl_append, List.foldl_cons, List.foldl_nil, ih,
        Finset.prod_range_succ]
      by_cases hj : n = j
      · simp [hj]
      · by_cases hi : n = i
        · simp [hj, hi]
        · simp [hj, hi]

/-- Closed form of the middle derivative loop state after `M` iterations. -/
lemma derivLoop_eq (z : ℕ → ℚ) (x : ℚ) (N i : ℕ) (M : ℕ) :
    derivLoop z x N i M =
      (∏ j ∈ Finset.range M, if j = i then 1 else z i - z j,
       ∑ j ∈ Finset.range M, if j = i then 0 else derivInner z x N i j,
       (∑ j ∈ Finset.range M, if j = i then 0 else derivInner z x N i j) /
         (∏ j ∈ Finset.range M, if j = i then 1 else z i - z j)) := by
  induction M with
  | zero => simp [derivLoop]
  | succ n ih =>
      have hstep : derivLoop z x N i (n + 1) = derivStep z x N i (derivLoop z x N i n) n := by
        unfold derivLoop
        rw [List.range_succ, List.foldl_append, List.foldl_cons, List.foldl_nil]
      rw [hstep, ih]
      by_cases h : n = i
      · simp [derivStep, h, Finset.prod_range_succ, Finset.sum_range_succ]
      · simp [derivStep, h, Finset.prod_range_succ, Finset.sum_range_succ]

/-- The 1D basis value returned by the code is the ratio of the numerator
product over nodes other than `i` to the denominator product of node
differences; no factor `x - z j` is ever divided by. -/
lemma lagrange_basis_closed (z : ℕ → ℚ) (N : ℕ) (x : ℚ) (i : ℕ) :
    lagrange_basis_1D z N x i =
      (∏ j ∈ (Finset.range N).erase i, (x - z j)) /
        (∏ j ∈ (Finset.range N).erase i, (z i - z j)) := by
  unfold lagrange_basis_1D
  rw [basisLoop_eq]
  simp only
  rw [prod_ite_erase, prod_ite_erase]

/-- The 1D basis derivative returned by the code is the finite numerator-sum
form: a sum of products of `x - z k`, divided once by the node-difference
product; the denominator does not involve `x`. -/
lemma lagrange_derivative_closed (z : ℕ → ℚ) (N : ℕ) (x : ℚ) (i : ℕ) :
    lagrange_derivative_1D z N x i =
      (∑ j ∈ (Finset.range N).erase i,
          ∏ k ∈ ((Finset.range N).erase i).erase j, (x - z k)) /
        (∏ j ∈ (Finset.range N).erase i, (z i - z j)) := by
  unfold lagrange_derivative_1D
  rw [derivLoop_eq]
  simp only
  have hsum : (∑ j ∈ Finset.range N, if j = i then 0 else derivInner z x N i j) =
      ∑ j ∈ (Finset.range N).erase i,
        ∏ k ∈ ((Finset.range N).erase i).erase j, (x - z k) := by
    rw [sum_ite_erase]
    refine Finset.sum_congr rfl fun j _ => ?_
    rw [derivInner_eq, prod_ite_erase_two]
  rw [hsum, prod_ite_erase]

/-- Claim C1: for every node set and every evaluation coordinate `x`, the 1D
Lagrange evaluator returns the basis value as the product
`Π (x - z j) / Π (z i - z j)` over `j ≠ i`, and returns the derivative via the
finite numerator-sum form `Σ over j ≠ i of Π over k ∉ {i, j} of (x - z k)`,
divided only by the node-difference product `Π (z i - z j)`; no factor
`x - z j` is divided by, so the derivative is finite even when `x` coincides
with a node. -/
theorem lagrange_1D_product_and_numerator_sum_forms (z : ℕ → ℚ) (N : ℕ) (x : ℚ) (i : ℕ) :
    lagrange_basis_1D z N x i =
      (∏ j ∈ (Finset.range N).erase i, (x - z j)) /
        (∏ j ∈ (Finset.range N).erase i, (z i - z j))
    ∧ lagrange_derivative_1D z N x i =
        (∑ j ∈ (Finset.range N).erase i,
            ∏ k ∈ ((Finset.range N).erase i).erase j, (x - z k)) /
          (∏ j ∈ (Finset.range N).erase i, (z i - z j)) :=
  ⟨lagrange_basis_closed z N x i, lagrange_derivative_closed z N x i⟩

/-- The 1D basis value computed by the code is the evaluation at `x` of the
Lagrange basis polynomial of Mathlib for the nodes `z` on `Finset.range N`. -/
lemma lagrange_basis_eq_eval (z : ℕ → ℚ) (N : ℕ) (x : ℚ) (i : ℕ) :
    lagrange_basis_1D z N x i =
      Polynomial.eval x (Lagrange.basis (Finset.range N) z i) := by
  rw [lagrange_basis_closed, Lagrange.basis, Polynomial.eval_prod]
  have h : ∀ j ∈ (Finset.range N).erase i,
      Polynomial.eval x (Lagrange.basisDivisor (z i) (z j)) = (x - z j) * (z i - z j)⁻¹ := by
    intro j _
    simp [Lagrange.basisDivisor, mul_comm]
  rw [Finset.prod_congr rfl h, Finset.prod_mul_distrib, Finset.prod_inv_distrib,
    div_eq_mul_inv]

/-- Pairwise distinctness of the first `N` nodes, phrased decidably. -/
def nodesDistinct (z : ℕ → ℚ) (N : ℕ) : Prop :=
  ∀ a ∈ Finset.range N, ∀ b ∈ Finset.range N, z a = z b → a = b

instance (z : ℕ → ℚ) (N : ℕ) : Decidable (nodesDistinct z N) := by
  unfold nodesDistinct
  infer_instance

/-- A decidable distinctness certificate gives injectivity on the coerced set. -/
lemma nodesDistinct.injOn {z : ℕ → ℚ} {N : ℕ} (hz : nodesDistinct z N) :
    Set.InjOn z (Finset.range N) := fun a ha b hb h =>
  hz a (Finset.mem_coe.mp ha) b (Finset.mem_coe.mp hb) h

/-- Claim C2: partition of unity.  For every node set of `N` distinct nodes
(`N` positive) and every evaluation coordinate `x`, inside or outside the
reference interval, the `N` basis values returned by `lagrange_basis_1D` sum
to `1`. -/
theorem lagrange_partition_of_unity (z : ℕ → ℚ) (N : ℕ) (x : ℚ) (hN : 0 < N)
    (hz : nodesDistinct z N) :
    ∑ i ∈ Finset.range N, lagrange_basis_1D z N x i = 1 := by
  have hinj := hz.injOn
  have hsum := Lagrange.sum_basis hinj (Finset.nonempty_range_iff.mpr hN.ne')
  calc
    ∑ i ∈ Finset.range N, lagrange_basis_1D z N x i
        = ∑ i ∈ Finset.range N, Polynomial.eval x (Lagrange.basis (Finset.range N) z i) :=
          Finset.sum_congr rfl fun i _ => lagrange_basis_eq_eval z N x i
    _ = Polynomial.eval x (∑ i ∈ Finset.range N, Lagrange.basis (Finset.range N) z i) :=
          (Polynomial.eval_finset_sum _ _ _).symm
    _ = 1 := by rw [hsum, Polynomial.eval_one]

/-- A three-node Gauss-Lobatto set on the reference interval, the node set of
the order-one `HexN` element. -/
def zGL3 : ℕ → ℚ := fun j => [(-1 : ℚ), 0, 1].getD j 0

/-- Witness for claim C2: the hypotheses hold for the concrete three-node set
and the conclusion follows at the off-node point `1/3`. -/
theorem lagrange_partition_of_unity_witness :
    0 < 3 ∧ nodesDistinct zGL3 3 ∧
      ∑ i ∈ Finset.range 3, lagrange_basis_1D zGL3 3 (1 / 3) i = 1 :=
  ⟨by decide, by decide, lagrange_partition_of_unity zGL3 3 (1 / 3) (by decide) (by decide)⟩

/-- Claim C3: cardinality (Kronecker) property.  For a node set of distinct
nodes and indices `i, j` below `N`, evaluating the basis function of index `i`
exactly at node `j` returns `1` when `i = j` and `0` otherwise, exactly, with
no tolerance branch: it falls out of the product form. -/
theorem lagrange_kronecker (z : ℕ → ℚ) (N : ℕ) (i j : ℕ) (hz : nodesDistinct z N)
    (hi : i < N) (hj : j < N) :
    lagrange_basis_1D z N (z j) i = if i = j then 1 else 0 := by
  have hinj := hz.injOn
  rw [lagrange_basis_eq_eval]
  by_cases h : i = j
  · subst h
    simp [Lagrange.eval_basis_self hinj (Finset.mem_range.mpr hi)]
  · simp [h, Lagrange.eval_basis_of_ne h (Finset.mem_range.mpr hj)]

/-- Witness for claim C3: at the concrete three-node set, basis `0` vanishes
at node `1`. -/
theorem lagrange_kronecker_witness :
    nodesDistinct zGL3 3 ∧ 0 < 3 ∧ 1 < 3 ∧
      lagrange_basis_1D zGL3 3 (zGL3 1) 0 = if 0 = 1 then 1 else 0 :=
  ⟨by decide, by decide, by decide,
    lagrange_kronecker zGL3 3 0 1 (by decide) (by decide) (by decide)⟩

/-- Embedding of `HexN::vert_rid` (`elements3D.cpp`): the flat index of the vertex with
per-axis indices `(i, j, k)` on a grid with `n` vertices per axis,
`i + j*n + k*n*n`.  `HexN::node_rid` is the same formula with the node count
in place of the vertex count. -/
def vert_rid (n i j k : ℕ) : ℕ :=
  i + j * n + k * (n * n)

/-- Modelled from the spec: the decoding direction `multi_index(flat)` of the
TensorProductIndexer is described in section 4.2 but has no three-dimensional
implementation in the repository snapshot (`QuadN::basis_partials` contains
the two-dimensional variant); it recovers the per-axis indices of a flat
index by remainders and quotients, axis 1 fastest-varying. -/
def multi_index (n flat : ℕ) : ℕ × ℕ × ℕ :=
  (flat % n, flat / n % n, flat / (n * n))

/-- The flat index of an in-range multi-index is in range. -/
lemma vert_rid_lt {n i j k : ℕ} (hi : i < n) (hj : j < n) (hk : k < n) :
    vert_rid n i j k < n * n * n := by
  have h1 : i + j * n + k * (n * n) < n + j * n + k * (n * n) := by
    exact Nat.add_lt_add_right (Nat.add_lt_add_right hi _) _
  have h2 : n + j * n + k * (n * n) ≤ n * n * n := by
    have hj1 : j + 1 ≤ n := hj
    have hk1 : k + 1 ≤ n := hk
    nlinarith
  exact lt_of_lt_of_le h1 h2

/-- Decoding after encoding recovers the multi-index. -/
lemma multi_index_vert_rid {n i j k : ℕ} (hi : i < n) (hj : j < n) (hk : k < n) :
    multi_index n (vert_rid n i j k) = (i, j, k) := by
  have hn : 0 < n := lt_of_le_of_lt (Nat.zero_le i) hi
  have hform : vert_rid n i j k = i + n * (j + k * n) := by
    unfold vert_rid
    ring
  have hc1 : vert_rid n i j k % n = i := by
    rw [hform, Nat.add_mul_mod_self_left, Nat.mod_eq_of_lt hi]
  have hdiv : vert_rid n i j k / n = j + k * n := by
    rw [hform, Nat.add_mul_div_left _ _ hn, Nat.div_eq_of_lt hi, Nat.zero_add]
  have hc2 : vert_rid n i j k / n % n = j := by
    rw [hdiv]
    have : j + k * n = j + n * k := by ring
    rw [this, Nat.add_mul_mod_self_left, Nat.mod_eq_of_lt hj]
  have hc3 : vert_rid n i j k / (n * n) = k := by
    have hform2 : vert_rid n i j k = (i + j * n) + (n * n) * k := by
      unfold vert_rid
      ring
    have hsmall : i + j * n < n * n := by
      have : i + j * n < n + j * n := Nat.add_lt_add_right hi _
      have h2 : n + j * n ≤ n * n := by
        have hj1 : j + 1 ≤ n := hj
        nlinarith
      exact lt_of_lt_of_le this h2
    rw [hform2, Nat.add_mul_div_left _ _ (Nat.mul_pos hn hn),
      Nat.div_eq_of_lt hsmall, Nat.zero_add]
  unfold multi_index
  rw [hc1, hc2, hc3]

/-- Encoding after decoding recovers the flat index, and the decoded
components are in range. -/
lemma vert_rid_multi_index {n flat : ℕ} (h : flat < n * n * n) :
    (multi_index n flat).1 < n ∧ (multi_index n flat).2.1 < n ∧
      (multi_index n flat).2.2 < n ∧
      vert_rid n (multi_index n flat).1 (multi_index n flat).2.1
        (multi_index n flat).2.2 = flat := by
  have hn : 0 < n := by
    rcases Nat.eq_zero_or_pos n with h0 | h1
    · subst h0
      simp at h
    · exact h1
  refine ⟨Nat.mod_lt _ hn, Nat.mod_lt _ hn, ?_, ?_⟩
  · have := (Nat.div_lt_iff_lt_mul (Nat.mul_pos hn hn)).mpr
      (show flat < n * (n * n) by calc flat < n * n * n := h
                                      _ = n * (n * n) := by ring)
    exact this
  · have key : flat = n * n * (flat / (n * n)) + n * (flat / n % n) + flat % n := by
      conv_lhs => rw [← Nat.div_add_mod flat n]
      conv_lhs => rw [← Nat.div_add_mod (flat / n) n]
      rw [Nat.div_div_eq_div_mul]
      ring
    unfold vert_rid multi_index
    simp only
    conv_rhs => rw [key]
    ring

/-- Claim C5: for every per-axis size `n`, the flat-index map
`(i, j, k) ↦ i + j*n + k*n*n` used by `vert_rid`/`node_rid` is a bijection
between multi-indices below `n` and flat indices below `n*n*n`: encoding lands
in range and decodes back, decoding lands in range and re-encodes back, and
axis 1 (`i`) is fastest-varying with unit stride. -/
theorem tensor_index_roundtrip (n : ℕ) :
    (∀ i j k : ℕ, i < n → j < n → k < n →
        vert_rid n i j k < n * n * n ∧ multi_index n (vert_rid n i j k) = (i, j, k))
    ∧ (∀ flat : ℕ, flat < n * n * n →
        (multi_index n flat).1 < n ∧ (multi_index n flat).2.1 < n ∧
          (multi_index n flat).2.2 < n ∧
          vert_rid n (multi_index n flat).1 (multi_index n flat).2.1
            (multi_index n flat).2.2 = flat)
    ∧ (∀ i j k : ℕ, vert_rid n (i + 1) j k = vert_rid n i j k + 1) := by
  refine ⟨fun i j k hi hj hk => ⟨vert_rid_lt hi hj hk, multi_index_vert_rid hi hj hk⟩,
    fun flat h => vert_rid_multi_index h, fun i j k => ?_⟩
  unfold vert_rid
  ring

/-- Witness for claim C5: at `n = 3`, the multi-index `(1, 2, 0)` encodes to
flat index `7`, decodes back, and the flat index `11` round-trips. -/
theorem tensor_index_roundtrip_witness :
    (1 < 3 ∧ 2 < 3 ∧ 0 < 3 ∧
      vert_rid 3 1 2 0 < 27 ∧ multi_index 3 (vert_rid 3 1 2 0) = (1, 2, 0))
    ∧ (11 < 27 ∧
        vert_rid 3 (multi_index 3 11).1 (multi_index 3 11).2.1 (multi_index 3 11).2.2 = 11) :=
  ⟨⟨by decide, by decide, by decide,
      ((tensor_index_roundtrip 3).1 1 2 0 (by decide) (by decide) (by decide)).1,
      ((tensor_index_roundtrip 3).1 1 2 0 (by decide) (by decide) (by decide)).2⟩,
    ⟨by decide, ((tensor_index_roundtrip 3).2.1 11 (by decide)).2.2.2⟩⟩

/-- Looking up a key no iteration writes returns the initial array value. -/
lemma foldl_update_of_notin {β : Type} (kf : ℕ × ℕ × ℕ → ℕ) (vf : ℕ × ℕ × ℕ → β)
    (l : List (ℕ × ℕ × ℕ)) (f : ℕ → β) (key : ℕ) (h : ∀ t ∈ l, kf t ≠ key) :
    l.foldl (fun acc t => Function.update acc (kf t) (vf t)) f key = f key := by
  induction l generalizing f with
  | nil => rfl
  | cons a rest ih =>
      rw [List.foldl_cons, ih _ fun t ht => h t (List.mem_cons_of_mem a ht)]
      exact Function.update_noteq (Ne.symm (h a (List.mem_cons_self a rest))) _ f

/-- Looking up the key of an element written exactly once by the loop returns
the value written there. -/
lemma foldl_update_lookup {β : Type} (kf : ℕ × ℕ × ℕ → ℕ) (vf : ℕ × ℕ × ℕ → β)
    (l : List (ℕ × ℕ × ℕ)) (f : ℕ → β) (t : ℕ × ℕ × ℕ) (ht : t ∈ l)
    (huniq : ∀ s ∈ l, kf s = kf t → s = t) :
    l.foldl (fun acc s => Function.update acc (kf s) (vf s)) f (kf t) = vf t := by
  induction l generalizing f with
  | nil => cases ht
  | cons a rest ih =>
      rw [List.foldl_cons]
      by_cases hmem : t ∈ rest
      · exact ih _ hmem (fun s hs h => huniq s (List.mem_cons_of_mem a hs) h)
      · have hta : t = a := by
          rcases List.mem_cons.mp ht with h | h
          · exact h
          · exact absurd h hmem
        have hnone : ∀ s ∈ rest, kf s ≠ kf t := by
          intro s hs h
          exact hmem (huniq s (List.mem_cons_of_mem a hs) h ▸ hs)
        rw [foldl_update_of_notin kf vf rest _ _ hnone, ← hta,
          Function.update_same]

/-- The list of per-axis index triples `(i, j, k)` visited by the triple loop
of `HexN::basis` and its partial-derivative variants: `k` outermost, `j`
middle, `i` innermost. -/
def tripleList (n : ℕ) : List (ℕ × ℕ × ℕ) :=
  (List.range n).flatMap fun k => (List.range n).flatMap fun j =>
    (List.range n).map fun i => (i, j, k)

lemma mem_tripleList {n i j k : ℕ} : (i, j, k) ∈ tripleList n ↔ i < n ∧ j < n ∧ k < n := by
  simp only [tripleList, List.mem_flatMap, List.mem_map, List.mem_range, Prod.mk.injEq]
  constructor
  · rintro ⟨k1, hk1, j1, hj1, i1, hi1, rfl, rfl, rfl⟩
    exact ⟨hi1, hj1, hk1⟩
  · rintro ⟨hi, hj, hk⟩
    exact ⟨k, hk, j, hj, i, hi, rfl, rfl, rfl⟩

/-- Two triples of in-range axis indices with the same flat index coincide. -/
lemma vert_rid_inj_on_triples {n : ℕ} {s t : ℕ × ℕ × ℕ} (hs : s ∈ tripleList n)
    (ht : t ∈ tripleList n)
    (h : vert_rid n s.1 s.2.1 s.2.2 = vert_rid n t.1 t.2.1 t.2.2) : s = t := by
  obtain ⟨s1, s2, s3⟩ := s
  obtain ⟨t1, t2, t3⟩ := t
  rw [mem_tripleList] at hs ht
  have h1 := multi_index_vert_rid hs.1 hs.2.1 hs.2.2
  have h2 := multi_index_vert_rid ht.1 ht.2.1 ht.2.2
  rw [show vert_rid n s1 s2 s3 = vert_rid n t1 t2 t3 from h, h2] at h1
  exact h1.symm

/-- The shared triple-loop skeleton of `HexN::basis`, `partial_xi_basis`,
`partial_eta_basis` and `partial_mu_basis`: for every `(i, j, k)` with `k`
outermost and `i` innermost, write the product of the three per-axis factors
into slot `vert_rid(i, j, k)` of the output array. -/
def tensor_assemble (fx fy fz : ℕ → ℚ) (n : ℕ) : ℕ → ℚ :=
  (tripleList n).foldl
    (fun acc t =>
      Function.update acc (vert_rid n t.1 t.2.1 t.2.2) (fx t.1 * fy t.2.1 * fz t.2.2))
    fun _ => 0

/-- Embedding of `HexN::basis` (`elements3D.cpp`): evaluate the 1D basis along each axis at
the corresponding coordinate of the point and write the triple products. -/
def hexN_basis (z : ℕ → ℚ) (n : ℕ) (px py pz : ℚ) : ℕ → ℚ :=
  tensor_assemble (lagrange_basis_1D z n px) (lagrange_basis_1D z n py)
    (lagrange_basis_1D z n pz) n

/-- Embedding of `HexN::partial_xi_basis`: the axis-1 factor is the 1D derivative. -/
def hexN_partial_xi_basis (z : ℕ → ℚ) (n : ℕ) (px py pz : ℚ) : ℕ → ℚ :=
  tensor_assemble (lagrange_derivative_1D z n px) (lagrange_basis_1D z n py)
    (lagrange_basis_1D z n pz) n

/-- Embedding of `HexN::partial_eta_basis`: the axis-2 factor is the 1D derivative. -/
def hexN_partial_eta_basis (z : ℕ → ℚ) (n : ℕ) (px py pz : ℚ) : ℕ → ℚ :=
  tensor_assemble (lagrange_basis_1D z n px) (lagrange_derivative_1D z n py)
    (lagrange_basis_1D z n pz) n

/-- Embedding of `HexN::partial_mu_basis`: the axis-3 factor is the 1D derivative. -/
def hexN_partial_mu_basis (z : ℕ → ℚ) (n : ℕ) (px py pz : ℚ) : ℕ → ℚ :=
  tensor_assemble (lagrange_basis_1D z n px) (lagrange_basis_1D z n py)
    (lagrange_derivative_1D z n pz) n

/-- Reading back slot `vert_rid(i, j, k)` of the assembled array returns the
product of the three per-axis factors. -/
lemma tensor_assemble_at (fx fy fz : ℕ → ℚ) {n i j k : ℕ} (hi : i < n) (hj : j < n)
    (hk : k < n) :
    tensor_assemble fx fy fz n (vert_rid n i j k) = fx i * fy j * fz k := by
  have ht : ((i, j, k) : ℕ × ℕ × ℕ) ∈ tripleList n := mem_tripleList.mpr ⟨hi, hj, hk⟩
  exact foldl_update_lookup (fun t => vert_rid n t.1 t.2.1 t.2.2)
    (fun t => fx t.1 * fy t.2.1 * fz t.2.2) (tripleList n) (fun _ => 0) (i, j, k) ht
    (fun s hs h => vert_rid_inj_on_triples hs ht h)

/-- Claim C4: tensor-product structure.  For every order (vertex count `n` per
axis) and point `(px, py, pz)`, the basis value stored at the flat index of
multi-index `(i, j, k)` is the product of the per-axis 1D Lagrange values, and
each partial derivative replaces exactly the differentiated axis's value
factor by the 1D derivative, leaving the other factors as values. -/
theorem hexN_tensor_product_structure (z : ℕ → ℚ) (n : ℕ) (px py pz : ℚ) (i j k : ℕ)
    (hi : i < n) (hj : j < n) (hk : k < n) :
    hexN_basis z n px py pz (vert_rid n i j k)
        = lagrange_basis_1D z n px i * lagrange_basis_1D z n py j *
            lagrange_basis_1D z n pz k
    ∧ hexN_partial_xi_basis z n px py pz (vert_rid n i j k)
        = lagrange_derivative_1D z n px i * lagrange_basis_1D z n py j *
            lagrange_basis_1D z n pz k
    ∧ hexN_partial_eta_basis z n px py pz (vert_rid n i j k)
        = lagrange_basis_1D z n px i * lagrange_derivative_1D z n py j *
            lagrange_basis_1D z n pz k
    ∧ hexN_partial_mu_basis z n px py pz (vert_rid n i j k)
        = lagrange_basis_1D z n px i * lagrange_basis_1D z n py j *
            lagrange_derivative_1D z n pz k :=
  ⟨tensor_assemble_at _ _ _ hi hj hk, tensor_assemble_at _ _ _ hi hj hk,
    tensor_assemble_at _ _ _ hi hj hk, tensor_assemble_at _ _ _ hi hj hk⟩

/-- A two-node 1D node set for witnesses. -/
def zLin2 : ℕ → ℚ := fun j => [(0 : ℚ), 1].getD j 0

/-- Witness for claim C4: applied at the two-node set, multi-index
`(1, 0, 1)`, and the point `(1/2, 1/4, 3/4)`. -/
theorem hexN_tensor_product_structure_witness :
    1 < 2 ∧ 0 < 2 ∧
      hexN_basis zLin2 2 (1 / 2) (1 / 4) (3 / 4) (vert_rid 2 1 0 1)
        = lagrange_basis_1D zLin2 2 (1 / 2) 1 * lagrange_basis_1D zLin2 2 (1 / 4) 0 *
            lagrange_basis_1D zLin2 2 (3 / 4) 1 :=
  ⟨by decide, by decide,
    (hexN_tensor_product_structure zLin2 2 (1 / 2) (1 / 4) (3 / 4) 1 0 1 (by decide)
        (by decide) (by decide)).1⟩

/-- Modelled from the spec: `LagrangeElement::eval_basis` is declared in
`LagrangeProductBasis.h` but its implementation is not in the repository
snapshot; section 4.3 of the spec defines the basis value of flat index `i`
as the product of the per-axis 1D Lagrange values at the decoded multi-index
of `i`. -/
def eval_basis (z : ℕ → ℚ) (n : ℕ) (i : ℕ) (px py pz : ℚ) : ℚ :=
  lagrange_basis_1D z n px (multi_index n i).1 *
    lagrange_basis_1D z n py (multi_index n i).2.1 *
    lagrange_basis_1D z n pz (multi_index n i).2.2

/-- Modelled from the spec: `LagrangeElement::eval_approx` is declared in
`LagrangeProductBasis.h` (which reserves a work array `C` for intermediate
coefficients) but its implementation is not in the repository snapshot;
section 4.3 defines it as the interpolant `Σ coeffs[i]·basis(point)[i]`,
modelled here in the sum-factorised form that contracts the coefficient array
one axis at a time, producing intermediate coefficients. -/
def eval_approx (z : ℕ → ℚ) (n : ℕ) (c : ℕ → ℚ) (px py pz : ℚ) : ℚ :=
  ∑ k ∈ Finset.range n, lagrange_basis_1D z n pz k *
    ∑ j ∈ Finset.range n, lagrange_basis_1D z n py j *
      ∑ i ∈ Finset.range n, lagrange_basis_1D z n px i * c (vert_rid n i j k)

/-- A sum over flat basis indices is a triple sum over per-axis indices. -/
lemma sum_flat_eq_triple (n : ℕ) (F : ℕ → ℚ) :
    ∑ f ∈ Finset.range (n * n * n), F f =
      ∑ k ∈ Finset.range n, ∑ j ∈ Finset.range n, ∑ i ∈ Finset.range n,
        F (vert_rid n i j k) := by
  have h1 : ∑ p ∈ (Finset.range n) ×ˢ ((Finset.range n) ×ˢ (Finset.range n)),
      F (vert_rid n p.2.2 p.2.1 p.1)
      = ∑ k ∈ Finset.range n, ∑ j ∈ Finset.range n, ∑ i ∈ Finset.range n,
          F (vert_rid n i j k) := by
    rw [Finset.sum_product]
    refine Finset.sum_congr rfl fun k _ => ?_
    rw [Finset.sum_product]
  rw [← h1]
  refine Finset.sum_nbij'
    (fun f => ((multi_index n f).2.2, (multi_index n f).2.1, (multi_index n f).1))
    (fun p => vert_rid n p.2.2 p.2.1 p.1) ?_ ?_ ?_ ?_ ?_
  · intro f hf
    have h := vert_rid_multi_index (Finset.mem_range.mp hf)
    simp only [Finset.mem_product, Finset.mem_range]
    exact ⟨h.2.2.1, h.2.1, h.1⟩
  · intro p hp
    simp only [Finset.mem_product, Finset.mem_range] at hp
    exact Finset.mem_range.mpr (vert_rid_lt hp.2.2 hp.2.1 hp.1)
  · intro f hf
    exact (vert_rid_multi_index (Finset.mem_range.mp hf)).2.2.2
  · intro p hp
    simp only [Finset.mem_product, Finset.mem_range] at hp
    simp only [multi_index_vert_rid hp.2.2 hp.2.1 hp.1]
  · intro f hf
    rw [(vert_rid_multi_index (Finset.mem_range.mp hf)).2.2.2]

/-- Claim C6: interpolation consistency.  For every coefficient array and
every evaluation point, the interpolant returned by `eval_approx` equals the
weighted sum of the individually evaluated basis functions, exactly over
exact arithmetic; this also holds at points coincident with a node. -/
theorem eval_approx_consistent (z : ℕ → ℚ) (n : ℕ) (c : ℕ → ℚ) (px py pz : ℚ) :
    eval_approx z n c px py pz =
      ∑ f ∈ Finset.range (n * n * n), c f * eval_basis z n f px py pz := by
  rw [sum_flat_eq_triple n fun f => c f * eval_basis z n f px py pz]
  unfold eval_approx
  simp only [Finset.mul_sum]
  refine Finset.sum_congr rfl fun k hk => ?_
  refine Finset.sum_congr rfl fun j hj => ?_
  refine Finset.sum_congr rfl fun i hi => ?_
  unfold eval_basis
  rw [multi_index_vert_rid (Finset.mem_range.mp hi) (Finset.mem_range.mp hj)
    (Finset.mem_range.mp hk)]
  ring

/-- A node set with a repeated coordinate, the concrete degenerate example
of the spec: `{-1, 0, 0, 1}`. -/
def zdeg : ℕ → ℚ
  | 0 => -1
  | 1 => 0
  | 2 => 0
  | _ => 1

/-- Counterexample to claim C7 at the concrete degenerate node set
`{-1, 0, 0, 1}`: nothing in the code rejects the node set at construction
(the evaluator is reached and runs to completion); the denominator computed
inside `lagrange_basis_1D` for basis index `2` is `0`, so the division by
zero happens during evaluation, the returned value is the junk value of the
total field division (`0` here, `inf`/`NaN` in the C++ floating-point run),
and the resulting basis is unusable: its values no longer sum to one. -/
theorem hexN_degenerate_nodes_not_rejected :
    (basisLoop zdeg (1 / 2) 2 4).2.1 = 0 ∧
      lagrange_basis_1D zdeg 4 (1 / 2) 2 = 0 ∧
      ∑ i ∈ Finset.range 4, lagrange_basis_1D zdeg 4 (1 / 2) i ≠ 1 := by
  refine ⟨?_, ?_, ?_⟩
  · norm_num [basisLoop, basisStep, zdeg, List.range_succ]
  · norm_num [lagrange_basis_1D, basisLoop, basisStep, zdeg, List.range_succ]
  · norm_num [Finset.sum_range_succ, lagrange_basis_1D, basisLoop, basisStep, zdeg,
      List.range_succ]

/-- Claim C7 as amended: neither `HexN::setup_HexN` nor any other code path
checks the node set for repeated coordinates, and no `DegenerateNodeSet`
condition exists; whenever two nodes coincide (one of them indexed by the
basis being evaluated), the denominator product formed inside
`lagrange_basis_1D` is zero and the evaluator performs the division by that
zero denominator at evaluation time. -/
theorem hexN_degenerate_nodes_divide_at_evaluation (z : ℕ → ℚ) (N : ℕ) (x : ℚ)
    (i a : ℕ) (ha : a < N) (hne : a ≠ i) (heq : z a = z i) :
    (basisLoop z x i N).2.1 = 0 ∧
      lagrange_basis_1D z N x i =
        (∏ j ∈ (Finset.range N).erase i, (x - z j)) / 0 := by
  have hmem : a ∈ (Finset.range N).erase i :=
    Finset.mem_erase.mpr ⟨hne, Finset.mem_range.mpr ha⟩
  have hzero : (∏ j ∈ (Finset.range N).erase i, (z i - z j)) = 0 :=
    Finset.prod_eq_zero hmem (by rw [← heq, sub_self])
  constructor
  · rw [basisLoop_eq]
    simp only
    rw [prod_ite_erase]
    exact hzero
  · rw [lagrange_basis_closed, hzero]

/-- Witness for the amended claim C7: applied at the degenerate node set
`{-1, 0, 0, 1}` with the duplicate pair `(1, 2)` and evaluation point `1/2`. -/
theorem hexN_degenerate_nodes_divide_at_evaluation_witness :
    1 < 4 ∧ (1 : ℕ) ≠ 2 ∧ zdeg 1 = zdeg 2 ∧
      (basisLoop zdeg (1 / 2) 2 4).2.1 = 0 :=
  ⟨by decide, by decide, rfl,
    (hexN_degenerate_nodes_divide_at_evaluation zdeg 4 (1 / 2) 2 1 (by decide) (by decide)
        rfl).1⟩

/-- The error taxonomy of section 7 of the spec, as far as the geometric
mapping needs it. -/
inductive MappingError where
  | SingularMapping
  deriving DecidableEq

/-- Modelled from the spec: `LagrangeElement::eval_grad_basis` is declared in
`LagrangeProductBasis.h` but its implementation is not in the repository
snapshot; section 4.3 defines the gradient of the basis function of flat
index `i` as the per-axis products with exactly the differentiated axis's
value factor replaced by the 1D derivative. -/
def eval_grad_basis (z : ℕ → ℚ) (n : ℕ) (i : ℕ) (px py pz : ℚ) : ℚ × ℚ × ℚ :=
  (lagrange_derivative_1D z n px (multi_index n i).1 *
      lagrange_basis_1D z n py (multi_index n i).2.1 *
      lagrange_basis_1D z n pz (multi_index n i).2.2,
    lagrange_basis_1D z n px (multi_index n i).1 *
      lagrange_derivative_1D z n py (multi_index n i).2.1 *
      lagrange_basis_1D z n pz (multi_index n i).2.2,
    lagrange_basis_1D z n px (multi_index n i).1 *
      lagrange_basis_1D z n py (multi_index n i).2.1 *
      lagrange_derivative_1D z n pz (multi_index n i).2.2)

/-- Component selector for a gradient triple. -/
def comp3 (g : ℚ × ℚ × ℚ) : Fin 3 → ℚ
  | 0 => g.1
  | 1 => g.2.1
  | 2 => g.2.2

/-- Modelled from the spec: `LagrangeElement::eval_jac` is declared in
`LagrangeProductBasis.h` but its implementation is not in the repository
snapshot; section 4.4 defines the Jacobian entry `(a, b)` as
`Σ vertices[i][a] · gradient(point)[i][b]`. -/
def eval_jac (z : ℕ → ℚ) (n : ℕ) (verts : ℕ → Fin 3 → ℚ) (px py pz : ℚ)
    (a b : Fin 3) : ℚ :=
  ∑ i ∈ Finset.range (n * n * n),
    verts i a * comp3 (eval_grad_basis z n i px py pz) b

/-- The closed-form determinant of a three-by-three matrix, the form the spec
prescribes for dimension at most three. -/
def det3 (J : Fin 3 → Fin 3 → ℚ) : ℚ :=
  J 0 0 * (J 1 1 * J 2 2 - J 1 2 * J 2 1) -
    J 0 1 * (J 1 0 * J 2 2 - J 1 2 * J 2 0) +
    J 0 2 * (J 1 0 * J 2 1 - J 1 1 * J 2 0)

/-- Modelled from the spec: `LagrangeElement::eval_det_jac`, the determinant
of the Jacobian at the evaluation point. -/
def eval_det_jac (z : ℕ → ℚ) (n : ℕ) (verts : ℕ → Fin 3 → ℚ) (px py pz : ℚ) : ℚ :=
  det3 (eval_jac z n verts px py pz)

/-- The cyclic cofactor of a three-by-three matrix: for size three the
cofactor of entry `(r, c)` is obtained from the two cyclically following rows
and columns, with no explicit sign. -/
def cof3 (J : Fin 3 → Fin 3 → ℚ) (r c : Fin 3) : ℚ :=
  J (r + 1) (c + 1) * J (r + 2) (c + 2) - J (r + 1) (c + 2) * J (r + 2) (c + 1)

/-- Modelled from the spec: `LagrangeElement::eval_inv_jac` is declared in
`LagrangeProductBasis.h` but its implementation is not in the repository
snapshot; section 4.4 defines it as the matrix inverse of the Jacobian, and
section 7 requires it to fail with a `SingularMapping` condition when the
determinant is zero rather than divide through. -/
def eval_inv_jac (z : ℕ → ℚ) (n : ℕ) (verts : ℕ → Fin 3 → ℚ) (px py pz : ℚ) :
    Except MappingError (Fin 3 → Fin 3 → ℚ) :=
  if eval_det_jac z n verts px py pz = 0 then
    Except.error MappingError.SingularMapping
  else
    Except.ok fun a b =>
      cof3 (eval_jac z n verts px py pz) b a / eval_det_jac z n verts px py pz

/-- Claim C8: singular-mapping detection.  For every evaluation point and
vertex configuration at which the Jacobian determinant is zero, the
Jacobian-inverse operation returns the `SingularMapping` condition to the
caller instead of dividing through. -/
theorem eval_inv_jac_singular (z : ℕ → ℚ) (n : ℕ) (verts : ℕ → Fin 3 → ℚ)
    (px py pz : ℚ) (h : eval_det_jac z n verts px py pz = 0) :
    eval_inv_jac z n verts px py pz = Except.error MappingError.SingularMapping := by
  unfold eval_inv_jac
  rw [if_pos h]

/-- A fully collapsed vertex configuration: every vertex at the origin. -/
def vertsZero : ℕ → Fin 3 → ℚ := fun _ _ => 0

/-- Witness for claim C8: the collapsed configuration has zero Jacobian
determinant and the inverse operation reports the singular mapping. -/
theorem eval_inv_jac_singular_witness :
    eval_det_jac zLin2 1 vertsZero 0 0 0 = 0 ∧
      eval_inv_jac zLin2 1 vertsZero 0 0 0 =
        Except.error MappingError.SingularMapping := by
  have hJ : ∀ a b : Fin 3, eval_jac zLin2 1 vertsZero 0 0 0 a b = 0 := by
    intro a b
    simp [eval_jac, vertsZero]
  have hdet : eval_det_jac zLin2 1 vertsZero 0 0 0 = 0 := by
    simp [eval_det_jac, det3, hJ]
  exact ⟨hdet, eval_inv_jac_singular zLin2 1 vertsZero 0 0 0 hdet⟩

/-- Table `Hex8::vert_to_node` (`elements3D.cpp`). -/
def Hex8_vert_to_node : List ℕ :=
  [0, 2, 6, 8, 18, 20, 24, 24]

/-- Table `Hex20::vert_to_node` (`elements3D.cpp`). -/
def Hex20_vert_to_node : List ℕ :=
  [0, 4, 24, 20, 100, 104, 124, 120, 2, 14, 22, 10, 102, 114, 122, 110, 50, 54, 74, 70]

/-- Table `Hex32::vert_to_node` (`elements3D.cpp`). -/
def Hex32_vert_to_node : List ℕ :=
  [0, 6, 48, 42, 294, 300, 342, 336, 14, 20, 32, 28, 308, 314, 328, 322,
    2, 4, 46, 44, 296, 298, 340, 338, 98, 104, 146, 140, 196, 202, 244, 298]

/-- Table `Quad4::vert_to_node` (`elements2D.cpp`). -/
def Quad4_vert_to_node : List ℕ :=
  [0, 2, 6, 8]

/-- Table `Quad8::vert_to_node` (`elements2D.cpp`). -/
def Quad8_vert_to_node : List ℕ :=
  [0, 4, 24, 20, 2, 14, 23, 10]

/-- Table `Quad12::vert_to_node` (`elements2D.cpp`). -/
def Quad12_vert_to_node : List ℕ :=
  [0, 6, 48, 42, 2, 4, 46, 44, 14, 20, 34, 28]

/-- Claim C9 fails on the code: the transcription defects of the static
`vert_to_node` tables, evaluated at the failing entries.  `Hex8` maps both
vertex `6` and vertex `7` to node `24` (vertex `7` sits at grid indices
`(2, 2, 2)` of the three-node grid, whose flat id is `26`), so the table is
not injective.  `Hex32` maps both vertex `21` and vertex `31` to node `298`
(vertex `31` sits at `(0, 6, 4)` of the seven-node grid, flat id `238`), and
maps vertex `10`, which sits at `(6, 4, 0)`, to `32` instead of `34`.
`Quad8` maps vertex `6`, at `(2, 4)` of the five-node grid, to `23` instead
of `22`.  `Quad4` maps vertices `2` and `3` to each other's grid positions:
vertex `2` sits at `(2, 2)`, flat id `8`, and vertex `3` at `(0, 2)`, flat
id `6`, but the table lists `6` then `8`. -/
theorem vert_to_node_table_defects :
    Hex8_vert_to_node.getD 6 0 = 24 ∧ Hex8_vert_to_node.getD 7 0 = 24 ∧
      vert_rid 3 2 2 2 = 26 ∧ ¬ Hex8_vert_to_node.Nodup ∧
      Hex32_vert_to_node.getD 21 0 = 298 ∧ Hex32_vert_to_node.getD 31 0 = 298 ∧
      vert_rid 7 0 6 4 = 238 ∧ ¬ Hex32_vert_to_node.Nodup ∧
      Hex32_vert_to_node.getD 10 0 = 32 ∧ vert_rid 7 6 4 0 = 34 ∧
      Quad8_vert_to_node.getD 6 0 = 23 ∧ vert_rid 5 2 4 0 = 22 ∧
      Quad4_vert_to_node.getD 2 0 = 6 ∧ Quad4_vert_to_node.getD 3 0 = 8 ∧
      vert_rid 3 2 2 0 = 8 ∧ vert_rid 3 0 2 0 = 6 := by
  decide

/-- The sequence of assignments `surface_to_dof_lid(row, col) = value`
performed by the `Hex20` constructor (`elements3D.cpp`), in source order.
The third block of eight assignments, commented as the first of the two
`sw planes`, writes to row `3`, as does the fourth block. -/
def Hex20_surface_writes : List (ℕ × ℕ × ℕ) :=
  [(0, 0, 0), (0, 1, 8), (0, 2, 1), (0, 3, 11), (0, 4, 9), (0, 5, 3), (0, 6, 10), (0, 7, 2),
   (1, 0, 4), (1, 1, 12), (1, 2, 5), (1, 3, 15), (1, 4, 13), (1, 5, 7), (1, 6, 14), (1, 7, 6),
   (3, 0, 0), (3, 1, 8), (3, 2, 1), (3, 3, 16), (3, 4, 17), (3, 5, 4), (3, 6, 12), (3, 7, 5),
   (3, 0, 3), (3, 1, 10), (3, 2, 2), (3, 3, 19), (3, 4, 18), (3, 5, 7), (3, 6, 14), (3, 7, 6),
   (4, 0, 0), (4, 1, 11), (4, 2, 3), (4, 3, 16), (4, 4, 19), (4, 5, 4), (4, 6, 15), (4, 7, 7),
   (5, 0, 1), (5, 1, 9), (5, 2, 2), (5, 3, 17), (5, 4, 18), (5, 5, 5), (5, 6, 13), (5, 7, 6)]

/-- The `surface_to_dof_lid` table produced by replaying the `Hex20`
constructor's assignments over an unwritten (all-`none`) table. -/
def Hex20_surface_table : ℕ × ℕ → Option ℕ :=
  Hex20_surface_writes.foldl
    (fun acc w => Function.update acc (w.1, w.2.1) (some w.2.2))
    fun _ => none

/-- Claim C10 fails on the code: after the `Hex20` constructor runs, every
slot of row `2` of `surface_to_dof_lid` is still unwritten, while row `3` has
been written twice with the ids of two different faces: column `0` of row `3`
first receives basis id `0` and is then overwritten with basis id `3`. -/
theorem hex20_surface_row_defect :
    (∀ c : Fin 8, Hex20_surface_table (2, c.1) = none) ∧
      ((Hex20_surface_writes.filter fun w => w.1 == 3 && w.2.1 == 0).map
          fun w => w.2.2) = [0, 3] ∧
      Hex20_surface_table (3, 0) = some 3 := by
  decide

end Elements
